import Mathlib

/-!
Verification of the PosAPP receipt rendering and multi-printer routing engine.

The development shallowly embeds the TypeScript sources:
  * `src/services/receiptRenderer.ts` (first revision in the file): `wrap`,
    `rpad`/`lpad`, `formatMoney`, `computeCols`, `amountAlignedRow`, and the
    per-item unit-price computation of `renderReceipt`;
  * `src/screens/DrawerContent.tsx`: `parseIpToken`, `normalizePort`,
    `findSavedByIpToken`, and the target construction / deduplication /
    result contract of `handleMultiLanPrint`;
  * `src/services/prefs.ts`: `normalizeProfile`, `parseIpToken`,
    `resolveSavedPrinterByIpTokenInList`;
  * `src/transports/netPrinter.ts` (the `src/unnamed/part_000` revision) and
    `src/transports/blePrinter.ts`: the `cut` fallback state machines.

JavaScript strings are modelled as `List Char`, JavaScript numbers as the
inductive `JSNum` (a rational for finite values, plus NaN and the two
infinities).  Machine floats are treated as exact rationals; this is the usual
shallow embedding and is noted wherever the distinction could matter.
-/

namespace PosApp

/-- JavaScript strings are modelled as lists of characters. -/
abbrev Str := List Char

/-- JS `s.split(sep)` for a single-character separator: always returns at
least one (possibly empty) part; `"".split(sep) = [""]`. -/
def splitOnChar (sep : Char) : Str → List Str
  | [] => [[]]
  | c :: cs =>
    if c = sep then [] :: splitOnChar sep cs
    else
      match splitOnChar sep cs with
      | [] => [[c]]
      | w :: ws => (c :: w) :: ws

theorem splitOnChar_ne_nil (sep : Char) (s : Str) : splitOnChar sep s ≠ [] := by
  cases s with
  | nil => simp [splitOnChar]
  | cons c cs =>
    by_cases h : c = sep
    · simp [splitOnChar, h]
    · simp only [splitOnChar, if_neg h]
      cases splitOnChar sep cs <;> simp

theorem splitOnChar_append (sep : Char) (a b : Str) :
    splitOnChar sep (a ++ sep :: b) = splitOnChar sep a ++ splitOnChar sep b := by
  induction a with
  | nil => simp [splitOnChar]
  | cons c cs ih =>
    by_cases h : c = sep
    · simp [splitOnChar, h, ih]
    · have hne := splitOnChar_ne_nil sep cs
      cases hsc : splitOnChar sep cs with
      | nil => exact absurd hsc hne
      | cons w ws => simp [splitOnChar, h, ih, hsc]

theorem splitOnChar_sep_not_mem (sep : Char) (s : Str) :
    ∀ w ∈ splitOnChar sep s, sep ∉ w := by
  induction s with
  | nil => simp [splitOnChar]
  | cons c cs ih =>
    by_cases h : c = sep
    · simpa [splitOnChar, h] using ih
    · simp only [splitOnChar, if_neg h]
      have hne := splitOnChar_ne_nil sep cs
      cases hsc : splitOnChar sep cs with
      | nil => exact absurd hsc hne
      | cons w ws =>
        intro x hx
        rcases List.mem_cons.mp hx with hx | hx
        · subst hx
          intro hmem
          rcases List.mem_cons.mp hmem with hc | hw
          · exact h hc.symm
          · exact ih w (hsc ▸ List.mem_cons_self w ws) hw
        · exact ih x (hsc ▸ List.mem_cons_of_mem w hx)

theorem splitOnChar_of_not_mem (sep : Char) (s : Str) (h : sep ∉ s) :
    splitOnChar sep s = [s] := by
  induction s with
  | nil => simp [splitOnChar]
  | cons c cs ih =>
    have hc : c ≠ sep := fun hc => h (hc ▸ List.mem_cons_self c cs)
    have hcs : sep ∉ cs := fun hm => h (List.mem_cons_of_mem c hm)
    simp [splitOnChar, hc, ih hcs]

/-- JS `String.prototype.trim` (whitespace stripped from both ends; the JS
whitespace class is modelled by `Char.isWhitespace`). -/
def jsTrim (s : Str) : Str :=
  ((s.dropWhile Char.isWhitespace).reverse.dropWhile Char.isWhitespace).reverse

theorem dropWhile_eq_self_of_all {α : Type} (p : α → Bool) (s : List α)
    (h : ∀ c ∈ s, p c = false) : s.dropWhile p = s := by
  cases s with
  | nil => rfl
  | cons c cs => simp [List.dropWhile, h c (List.mem_cons_self c cs)]

theorem jsTrim_of_no_ws (s : Str) (h : ∀ c ∈ s, c.isWhitespace = false) :
    jsTrim s = s := by
  unfold jsTrim
  rw [dropWhile_eq_self_of_all _ _ h, dropWhile_eq_self_of_all, List.reverse_reverse]
  intro c hc
  exact h c (List.mem_reverse.mp hc)

/-- The character for a decimal digit `d < 10`. -/
def digitChar (d : Nat) : Char := Char.ofNat (48 + d)

theorem digitChar_isDigit {d : Nat} (h : d < 10) : (digitChar d).isDigit = true := by
  interval_cases d <;> decide

theorem digitChar_ne_dot {d : Nat} (h : d < 10) : digitChar d ≠ '.' := by
  interval_cases d <;> decide

/-- Decimal rendering, structurally recursive on a fuel argument so that it
evaluates by kernel reduction; `natDigs` supplies ample fuel. -/
def natDigsAux : Nat → Nat → Str
  | 0, _ => []
  | fuel + 1, n =>
    if n < 10 then [digitChar n]
    else natDigsAux fuel (n / 10) ++ [digitChar (n % 10)]

/-- Decimal digit string of a natural number (no sign, no leading zeros
except for `0` itself). -/
def natDigs (n : Nat) : Str := natDigsAux (n + 1) n

theorem natDigsAux_all_digit :
    ∀ (fuel n : Nat), ∀ c ∈ natDigsAux fuel n, c.isDigit = true := by
  intro fuel
  induction fuel with
  | zero => simp [natDigsAux]
  | succ fuel ih =>
    intro n c hc
    rw [natDigsAux] at hc
    by_cases h : n < 10
    · rw [if_pos h] at hc
      simp only [List.mem_singleton] at hc
      exact hc ▸ digitChar_isDigit h
    · rw [if_neg h] at hc
      rcases List.mem_append.mp hc with hc | hc
      · exact ih (n / 10) c hc
      · simp only [List.mem_singleton] at hc
        exact hc ▸ digitChar_isDigit (Nat.mod_lt _ (by omega))

theorem natDigs_all_digit (n : Nat) : ∀ c ∈ natDigs n, c.isDigit = true :=
  natDigsAux_all_digit (n + 1) n

theorem natDigs_ne_nil (n : Nat) : natDigs n ≠ [] := by
  rw [natDigs, natDigsAux]
  by_cases h : n < 10
  · rw [if_pos h]
    simp
  · rw [if_neg h]
    simp

/-- Numeric value of a decimal digit string. -/
def digitsVal (ds : Str) : Nat :=
  ds.foldl (fun a c => 10 * a + (c.toNat - 48)) 0

/-- JS `Number(s)` restricted to non-empty decimal-digit strings (the only
shape of port text these claims exercise); any other string yields NaN,
modelled as `none`. -/
def jsNumberDigits (s : Str) : Option Nat :=
  if s ≠ [] ∧ s.all Char.isDigit then some (digitsVal s) else none

/-! ### Layout engine (`src/services/receiptRenderer.ts`, first revision) -/

/-- `rpad(s, len)`: right-pad with spaces, or truncate (keeping the left part)
when the content is at least as long as the field. -/
def rpad (s : Str) (len : Nat) : Str :=
  if len ≤ s.length then s.take len else s ++ List.replicate (len - s.length) ' '

/-- `lpad(s, len)`: left-pad with spaces, or truncate keeping the LAST `len`
characters (`s.slice(s.length - len)`) when the content is at least as long as
the field. -/
def lpad (s : Str) (len : Nat) : Str :=
  if len ≤ s.length then s.drop (s.length - len)
  else List.replicate (len - s.length) ' ' ++ s

theorem rpad_length (s : Str) (len : Nat) : (rpad s len).length = len := by
  unfold rpad
  by_cases h : len ≤ s.length <;> simp [h] <;> omega

theorem lpad_length (s : Str) (len : Nat) : (lpad s len).length = len := by
  unfold lpad
  by_cases h : len ≤ s.length <;> simp [h] <;> omega

/-- Column widths of the item table.  `gaps = 3` in this revision, so the
fixed part is `qty + price + amount + gaps = 22`; the Item column takes the
rest, floored at 8.  (JS computes `total - 22` in signed arithmetic; the
`max 8` clamp makes truncated `Nat` subtraction agree with it.) -/
structure Cols where
  item : Nat
  qty : Nat
  price : Nat
  amount : Nat

def computeCols (total : Nat) : Cols :=
  { item := max 8 (total - (4 + 7 + 8 + 3)), qty := 4, price := 7, amount := 8 }

/-- `AMOUNT_GAP` of the first renderer revision. -/
def AMOUNT_GAP : Nat := 1

/-- `amountAlignedRow(label, value, width)`: label left-padded/truncated to
the width remaining left of the Amount column, a single-space gap, then the
value right-aligned in the 8-character Amount column. -/
def amountAlignedRow (label value : Str) (width : Nat) : Str :=
  let cols := computeCols width
  let gap := AMOUNT_GAP
  let leftW := max 1 (width - cols.amount - gap)
  rpad label leftW ++ List.replicate gap ' ' ++ lpad value cols.amount

theorem computeCols_amount (total : Nat) : (computeCols total).amount = 8 := rfl

/-- C4: for any label, value and clamped width, the aligned row is exactly
`width` characters and ends with the value right-aligned in the 8-character
Amount column. -/
theorem amountAlignedRow_spec (label value : Str) (width : Nat)
    (h1 : 24 ≤ width) (h2 : width ≤ 64) :
    (amountAlignedRow label value width).length = width ∧
    (amountAlignedRow label value width).drop (width - 8) = lpad value 8 ∧
    (value.length ≤ 8 →
      (amountAlignedRow label value width).drop (width - 8) =
        List.replicate (8 - value.length) ' ' ++ value) := by
  have hleft : max 1 (width - 8 - AMOUNT_GAP) = width - 9 := by
    simp only [AMOUNT_GAP]
    omega
  have hrow : amountAlignedRow label value width
      = rpad label (width - 9) ++ List.replicate AMOUNT_GAP ' ' ++ lpad value 8 := by
    simp only [amountAlignedRow, computeCols_amount]
    rw [hleft]
  have hlen : (rpad label (width - 9) ++ List.replicate AMOUNT_GAP ' ').length = width - 8 := by
    simp only [List.length_append, rpad_length, List.length_replicate, AMOUNT_GAP]
    omega
  refine ⟨?_, ?_, ?_⟩
  · rw [hrow]
    simp only [List.length_append, rpad_length, List.length_replicate, lpad_length,
      AMOUNT_GAP]
    omega
  · rw [hrow, ← hlen, List.drop_left]
  · intro hv
    rw [hrow, ← hlen, List.drop_left]
    by_cases h8 : 8 ≤ value.length
    · have hq : value.length = 8 := le_antisymm hv h8
      simp [lpad, h8, hq]
    · simp [lpad, h8]

/-- Witness for C4 at concrete inputs. -/
theorem amountAlignedRow_spec_witness :
    (amountAlignedRow ('T' :: 'o' :: 't' :: 'a' :: 'l' :: []) ('6' :: '.' :: '0' :: '0' :: []) 32).length = 32 ∧
    (amountAlignedRow ('T' :: 'o' :: 't' :: 'a' :: 'l' :: []) ('6' :: '.' :: '0' :: '0' :: []) 32).drop 24 =
      lpad ('6' :: '.' :: '0' :: '0' :: []) 8 := by
  have h := amountAlignedRow_spec ('T' :: 'o' :: 't' :: 'a' :: 'l' :: [])
    ('6' :: '.' :: '0' :: '0' :: []) 32 (by decide) (by decide)
  exact ⟨h.1, h.2.1⟩

/-! ### Word wrap (`wrap` in `src/services/receiptRenderer.ts`) -/

/-- Hard-split of an over-long word: `for (let i = 0; i < w.length; i += width)
out.push(w.slice(i, i + width))`.  For `width ≥ 1` each step takes the first
`width` characters (`c :: cs.take (width - 1) = (c :: cs).take width`) and
recurses on the rest; the source only reaches this loop with `width ≥ 1`. -/
def chunks (width : Nat) : Str → List Str
  | [] => []
  | c :: cs => (c :: cs.take (width - 1)) :: chunks width (cs.drop (width - 1))
termination_by s => s.length
decreasing_by
  simp only [List.length_drop, List.length_cons]
  omega

theorem chunks_flatten (width : Nat) (s : Str) : (chunks width s).flatten = s := by
  have H : ∀ (n : Nat) (s : Str), s.length = n → (chunks width s).flatten = s := by
    intro n
    induction n using Nat.strong_induction_on with
    | _ n ih =>
      intro s hn
      cases s with
      | nil => simp [chunks]
      | cons c cs =>
        rw [chunks]
        have hlt : (cs.drop (width - 1)).length < n := by
          simp only [List.length_drop]
          simp only [List.length_cons] at hn
          omega
        simp only [List.flatten_cons, List.cons_append,
          ih _ hlt (cs.drop (width - 1)) rfl, List.cons.injEq, true_and]
        exact List.take_append_drop _ cs
  exact H s.length s rfl

theorem chunks_length_le (width : Nat) (hw : 1 ≤ width) (s : Str) :
    ∀ l ∈ chunks width s, l.length ≤ width := by
  have H : ∀ (n : Nat) (s : Str), s.length = n → ∀ l ∈ chunks width s, l.length ≤ width := by
    intro n
    induction n using Nat.strong_induction_on with
    | _ n ih =>
      intro s hn
      cases s with
      | nil => simp [chunks]
      | cons c cs =>
        rw [chunks]
        intro l hl
        rcases List.mem_cons.mp hl with hl | hl
        · subst hl
          simp only [List.length_cons, List.length_take]
          omega
        · have hlt : (cs.drop (width - 1)).length < n := by
            simp only [List.length_drop]
            simp only [List.length_cons] at hn
            omega
          exact ih _ hlt _ rfl l hl
  exact H s.length s rfl

theorem chunks_ne_nil (width : Nat) (s : Str) : ∀ l ∈ chunks width s, l ≠ [] := by
  have H : ∀ (n : Nat) (s : Str), s.length = n → ∀ l ∈ chunks width s, l ≠ [] := by
    intro n
    induction n using Nat.strong_induction_on with
    | _ n ih =>
      intro s hn
      cases s with
      | nil => simp [chunks]
      | cons c cs =>
        rw [chunks]
        intro l hl
        rcases List.mem_cons.mp hl with hl | hl
        · simp [hl]
        · have hlt : (cs.drop (width - 1)).length < n := by
            simp only [List.length_drop]
            simp only [List.length_cons] at hn
            omega
          exact ih _ hlt _ rfl l hl
  exact H s.length s rfl

theorem chunks_no_mem (width : Nat) (s : Str) (x : Char) (hx : x ∉ s) :
    ∀ l ∈ chunks width s, x ∉ l := by
  have H : ∀ (n : Nat) (s : Str), s.length = n → x ∉ s → ∀ l ∈ chunks width s, x ∉ l := by
    intro n
    induction n using Nat.strong_induction_on with
    | _ n ih =>
      intro s hn hxs
      cases s with
      | nil => simp [chunks]
      | cons c cs =>
        rw [chunks]
        intro l hl
        rcases List.mem_cons.mp hl with hl | hl
        · subst hl
          intro hmem
          rcases List.mem_cons.mp hmem with hc | hc
          · exact hxs (hc ▸ List.mem_cons_self c cs)
          · exact hxs (List.mem_cons_of_mem c (List.mem_of_mem_take hc))
        · have hlt : (cs.drop (width - 1)).length < n := by
            simp only [List.length_drop]
            simp only [List.length_cons] at hn
            omega
          have hxd : x ∉ cs.drop (width - 1) := fun hm =>
            hxs (List.mem_cons_of_mem c (List.mem_of_mem_drop hm))
          exact ih _ hlt _ rfl hxd l hl
  exact H s.length s rfl hx

/-- Loop body of `wrap`: iterates over the space-separated words, carrying the
current `line` accumulator exactly as the source does. -/
def wrapGo (width : Nat) : List Str → Str → List Str
  | [], line => if line = [] then [] else [line]
  | w :: ws, line =>
    let test := if line = [] then w else line ++ ' ' :: w
    if test.length ≤ width then wrapGo width ws test
    else
      (if line = [] then [] else [line]) ++
        (if width < w.length then chunks width w ++ wrapGo width ws []
         else wrapGo width ws w)

/-- `wrap(text, width)`: greedy word wrap over `String(text).split(' ')`. -/
def wrap (text : Str) (width : Nat) : List Str :=
  wrapGo width (splitOnChar ' ' text) []

/-- The (non-empty) words of a string, in order. -/
def wordsIn (s : Str) : List Str :=
  (splitOnChar ' ' s).filter (fun w => !w.isEmpty)

/-- What the wrap of a single source word contributes to the output words:
an over-long word becomes its hard-split chunks, an empty word vanishes, and
any other word is kept whole. -/
def explode (width : Nat) (w : Str) : List Str :=
  if width < w.length then chunks width w else if w = [] then [] else [w]

theorem wordsIn_nil : wordsIn [] = [] := rfl

theorem wordsIn_append_space (a b : Str) :
    wordsIn (a ++ ' ' :: b) = wordsIn a ++ wordsIn b := by
  unfold wordsIn
  rw [splitOnChar_append, List.filter_append]

theorem wordsIn_no_space (w : Str) (h : ' ' ∉ w) :
    wordsIn w = if w = [] then [] else [w] := by
  unfold wordsIn
  rw [splitOnChar_of_not_mem _ _ h]
  by_cases hw : w = []
  · simp [hw]
  · simp [hw, List.isEmpty_iff]

theorem wrapGo_nil (width : Nat) (line : Str) :
    wrapGo width [] line = if line = [] then [] else [line] := rfl

theorem wrapGo_cons (width : Nat) (w : Str) (ws : List Str) (line : Str) :
    wrapGo width (w :: ws) line =
      if (if line = [] then w else line ++ ' ' :: w).length ≤ width then
        wrapGo width ws (if line = [] then w else line ++ ' ' :: w)
      else
        (if line = [] then [] else [line]) ++
          (if width < w.length then chunks width w ++ wrapGo width ws []
           else wrapGo width ws w) := rfl

theorem flatMap_singleton_eq_self {α : Type} (L : List (List α)) (f : List α → List (List α))
    (hmem : ∀ l ∈ L, f l = [l]) : L.flatMap f = L := by
  induction L with
  | nil => rfl
  | cons a as ih =>
    rw [List.flatMap_cons, hmem a (List.mem_cons_self a as),
      ih (fun l hl => hmem l (List.mem_cons_of_mem a hl))]
    rfl

theorem wrapGo_length_le (width : Nat) (hw : 1 ≤ width) :
    ∀ (ws : List Str) (line : Str), line.length ≤ width →
      ∀ l ∈ wrapGo width ws line, l.length ≤ width := by
  intro ws
  induction ws with
  | nil =>
    intro line hline l hl
    by_cases h : line = []
    · simp [wrapGo, h] at hl
    · simp only [wrapGo, if_neg h, List.mem_singleton] at hl
      exact hl ▸ hline
  | cons w ws ih =>
    intro line hline l hl
    simp only [wrapGo] at hl
    by_cases htest : (if line = [] then w else line ++ ' ' :: w).length ≤ width
    · rw [if_pos htest] at hl
      exact ih _ htest l hl
    · rw [if_neg htest] at hl
      rcases List.mem_append.mp hl with hl | hl
      · by_cases hline0 : line = []
        · simp [hline0] at hl
        · simp only [if_neg hline0, List.mem_singleton] at hl
          exact hl ▸ hline
      · by_cases hlong : width < w.length
        · rw [if_pos hlong] at hl
          rcases List.mem_append.mp hl with hl | hl
          · exact chunks_length_le width hw w l hl
          · exact ih [] (by simp) l hl
        · rw [if_neg hlong] at hl
          exact ih w (by omega) l hl

theorem wrapGo_flatMap (width : Nat) :
    ∀ (ws : List Str) (line : Str), (∀ w ∈ ws, ' ' ∉ w) →
      (wrapGo width ws line).flatMap wordsIn =
        wordsIn line ++ ws.flatMap (explode width) := by
  intro ws
  induction ws with
  | nil =>
    intro line _
    rw [wrapGo_nil]
    by_cases h : line = []
    · rw [if_pos h, h, wordsIn_nil]
      rfl
    · rw [if_neg h]
      simp
  | cons w ws ih =>
    intro line hns
    have hw' : ' ' ∉ w := hns w (List.mem_cons_self w ws)
    have hws : ∀ x ∈ ws, ' ' ∉ x := fun x hx => hns x (List.mem_cons_of_mem w hx)
    have hexp_short : ¬ width < w.length → explode width w = wordsIn w := by
      intro hlong
      rw [wordsIn_no_space w hw', explode, if_neg hlong]
    have hexp_long : width < w.length → explode width w = chunks width w := by
      intro hlong
      rw [explode, if_pos hlong]
    have hchunks : (chunks width w).flatMap wordsIn = chunks width w := by
      refine flatMap_singleton_eq_self _ _ ?_
      intro l hl
      rw [wordsIn_no_space l (chunks_no_mem width w ' ' hw' l hl),
        if_neg (chunks_ne_nil width w l hl)]
    rw [wrapGo_cons, List.flatMap_cons]
    by_cases hl : line = []
    · have e1 : (if line = [] then w else line ++ ' ' :: w) = w := if_pos hl
      have e2 : (if line = [] then ([] : List Str) else [line]) = [] := if_pos hl
      rw [e1, e2, hl, wordsIn_nil, List.nil_append, List.nil_append]
      by_cases htest : w.length ≤ width
      · rw [if_pos htest, ih w hws, hexp_short (by omega)]
      · rw [if_neg htest, if_pos (show width < w.length by omega),
          List.flatMap_append, hchunks, ih [] hws, wordsIn_nil, List.nil_append,
          hexp_long (by omega)]
    · have e1 : (if line = [] then w else line ++ ' ' :: w) = line ++ ' ' :: w :=
        if_neg hl
      have e2 : (if line = [] then ([] : List Str) else [line]) = [line] := if_neg hl
      rw [e1, e2]
      by_cases htest : (line ++ ' ' :: w).length ≤ width
      · have hwlen : ¬ width < w.length := by
          simp only [List.length_append, List.length_cons] at htest
          omega
        rw [if_pos htest, ih _ hws, wordsIn_append_space, hexp_short hwlen,
          List.append_assoc]
      · rw [if_neg htest]
        by_cases hlong : width < w.length
        · rw [if_pos hlong, List.flatMap_append, List.flatMap_append, hchunks,
            ih [] hws, wordsIn_nil, List.nil_append, hexp_long hlong]
          congr 1
          simp
        · rw [if_neg hlong, List.flatMap_append, ih w hws, hexp_short hlong]
          congr 1
          simp

theorem explode_flatten (width : Nat) (w : Str) (h : ' ' ∉ w) :
    (explode width w).flatten = w := by
  unfold explode
  by_cases hlong : width < w.length
  · rw [if_pos hlong]
    exact chunks_flatten width w
  · rw [if_neg hlong]
    by_cases hw : w = [] <;> simp [hw]

theorem flatMap_explode_flatten (W : Nat) :
    ∀ (l : List Str), (∀ w ∈ l, ' ' ∉ w) →
      (l.flatMap (explode W)).flatten = l.flatten := by
  intro l
  induction l with
  | nil => intro _; rfl
  | cons w ws ih =>
    intro hmem
    simp only [List.flatMap_cons, List.flatten_append, List.flatten_cons,
      ih (fun x hx => hmem x (List.mem_cons_of_mem w hx)),
      explode_flatten W w (hmem w (List.mem_cons_self w ws))]

theorem flatten_filter_ne_nil {α : Type} (l : List (List α)) :
    (l.filter (fun w => !w.isEmpty)).flatten = l.flatten := by
  induction l with
  | nil => rfl
  | cons w ws ih =>
    by_cases hw : w = []
    · simp [hw, ih]
    · have : (!w.isEmpty) = true := by simp [List.isEmpty_iff, hw]
      simp [List.filter_cons, this, ih]

/-- C1: for every clamped width, each produced line fits in `width`
characters; the words of the output, in order, are exactly the source words
with over-long words replaced by their hard-split chunks; and re-concatenating
the output words yields the concatenation of the original words — no word is
lost, dropped, or duplicated. -/
theorem wrap_spec (text : Str) (W : Nat) (h1 : 24 ≤ W) (h2 : W ≤ 64) :
    (∀ l ∈ wrap text W, l.length ≤ W) ∧
    (wrap text W).flatMap wordsIn = (splitOnChar ' ' text).flatMap (explode W) ∧
    ((wrap text W).flatMap wordsIn).flatten = (wordsIn text).flatten := by
  have hsplit : ∀ w ∈ splitOnChar ' ' text, ' ' ∉ w :=
    splitOnChar_sep_not_mem ' ' text
  have hflat : (wrap text W).flatMap wordsIn
      = (splitOnChar ' ' text).flatMap (explode W) := by
    unfold wrap
    rw [wrapGo_flatMap W _ [] hsplit, wordsIn_nil, List.nil_append]
  refine ⟨?_, hflat, ?_⟩
  · exact wrapGo_length_le W (by omega) _ [] (by simp)
  · rw [hflat, flatMap_explode_flatten W _ hsplit]
    unfold wordsIn
    rw [flatten_filter_ne_nil]

/-- Witness for C1 at a concrete text and width (includes a word longer
than 24 characters, exercising the hard-split path). -/
theorem wrap_spec_witness :
    (∀ l ∈ wrap ('s' :: 'u' :: 'p' :: 'e' :: 'r' :: 'c' :: 'a' :: 'l' :: 'i' :: 'f' ::
      'r' :: 'a' :: 'g' :: 'i' :: 'l' :: 'i' :: 's' :: 't' :: 'i' :: 'c' :: 'e' ::
      'x' :: 'p' :: 'i' :: 'a' :: ' ' :: 'o' :: 'k' :: []) 24, l.length ≤ 24) ∧
    (wrap ('s' :: 'u' :: 'p' :: 'e' :: 'r' :: 'c' :: 'a' :: 'l' :: 'i' :: 'f' ::
      'r' :: 'a' :: 'g' :: 'i' :: 'l' :: 'i' :: 's' :: 't' :: 'i' :: 'c' :: 'e' ::
      'x' :: 'p' :: 'i' :: 'a' :: ' ' :: 'o' :: 'k' :: []) 24).flatMap wordsIn =
      (splitOnChar ' ' ('s' :: 'u' :: 'p' :: 'e' :: 'r' :: 'c' :: 'a' :: 'l' :: 'i' :: 'f' ::
        'r' :: 'a' :: 'g' :: 'i' :: 'l' :: 'i' :: 's' :: 't' :: 'i' :: 'c' :: 'e' ::
        'x' :: 'p' :: 'i' :: 'a' :: ' ' :: 'o' :: 'k' :: [])).flatMap (explode 24) := by
  have h := wrap_spec ('s' :: 'u' :: 'p' :: 'e' :: 'r' :: 'c' :: 'a' :: 'l' :: 'i' :: 'f' ::
    'r' :: 'a' :: 'g' :: 'i' :: 'l' :: 'i' :: 's' :: 't' :: 'i' :: 'c' :: 'e' ::
    'x' :: 'p' :: 'i' :: 'a' :: ' ' :: 'o' :: 'k' :: []) 24 (by decide) (by decide)
  exact ⟨h.1, h.2.1⟩

/-! ### JavaScript numbers, `formatMoney`, and the item-row unit price -/

/-- A JavaScript number: a finite value (modelled as an exact rational), NaN,
or one of the two infinities.  Signed zeros are not distinguished. -/
inductive JSNum where
  | fin (q : ℚ)
  | nan
  | inf
  | neginf
deriving DecidableEq

/-- `toInt(v, d) = Number.isFinite(Number(v)) ? Number(v) : d`.  Fields are
modelled after the `Number(·)` coercion, so the finite case returns the value
and every non-finite case returns the default. -/
def toInt (v : JSNum) (d : ℚ) : ℚ :=
  match v with
  | .fin q => q
  | _ => d

/-- JavaScript `/` on numbers (IEEE-754 semantics over the rational model):
division by zero yields NaN for `0 / 0` and a signed infinity otherwise; NaN
propagates; `inf / inf` is NaN; finite over infinite is zero. -/
def jsDiv : JSNum → JSNum → JSNum
  | .nan, _ => .nan
  | _, .nan => .nan
  | .inf, .inf => .nan
  | .inf, .neginf => .nan
  | .neginf, .inf => .nan
  | .neginf, .neginf => .nan
  | .inf, .fin b => if b < 0 then .neginf else .inf
  | .neginf, .fin b => if b < 0 then .inf else .neginf
  | .fin _, .inf => .fin 0
  | .fin _, .neginf => .fin 0
  | .fin a, .fin b =>
    if b = 0 then (if a = 0 then .nan else if 0 < a then .inf else .neginf)
    else .fin (a / b)

/-- ECMAScript `ToString` of a finite value of magnitude at least `10^21`
(every double that large is an integer, so the integer magnitude is taken):
the significant digits with trailing zeros stripped, printed in the
exponential form `d.ddd…e+K`.  A zero argument cannot arise from that range;
it is still rendered in the same exponential shape to keep the function
total. -/
def jsToStringBigInt (a : Nat) : Str :=
  let ds := natDigs a
  let k := ds.length - 1
  let sig := (ds.reverse.dropWhile (fun c => c = '0')).reverse
  (match sig with
   | [] => ['0']
   | d :: rest => if rest = [] then [d] else d :: '.' :: rest) ++
    'e' :: '+' :: natDigs k

/-- `n.toFixed(2)` on a finite value, following the ECMAScript algorithm:
split off the sign; a magnitude of `10^21` or more falls back to the
exponential `ToString` rendering; otherwise round the magnitude to the
nearest hundredth (ties to the larger value) and print the integer digits, a
dot, and exactly two fractional digits. -/
def toFixed2 (q : ℚ) : Str :=
  let s : Str := if q < 0 then ['-'] else []
  let x : ℚ := |q|
  if 10 ^ 21 ≤ x then s ++ jsToStringBigInt x.floor.toNat
  else
    let cents : Nat := (x * 100 + 1 / 2).floor.toNat
    s ++ natDigs (cents / 100) ++
      '.' :: digitChar (cents % 100 / 10) :: [digitChar (cents % 100 % 10)]

/-- `formatMoney(n) = (Number.isFinite(n) ? n : 0).toFixed(2)`. -/
def formatMoney (n : JSNum) : Str :=
  toFixed2 (match n with | .fin q => q | _ => 0)

theorem toFixed2_shape (q : ℚ) (hq : |q| < 10 ^ 21) :
    ∃ pre a b, toFixed2 q = pre ++ '.' :: a :: [b] ∧ '.' ∉ pre ∧
      a.isDigit = true ∧ b.isDigit = true := by
  have hbig : ¬ ((10 : ℚ) ^ 21 ≤ |q|) := not_le.mpr hq
  refine ⟨(if q < 0 then ['-'] else []) ++
      natDigs ((|q| * 100 + 1 / 2).floor.toNat / 100),
    digitChar ((|q| * 100 + 1 / 2).floor.toNat % 100 / 10),
    digitChar ((|q| * 100 + 1 / 2).floor.toNat % 100 % 10), ?_, ?_, ?_, ?_⟩
  · simp only [toFixed2]
    rw [if_neg hbig, List.append_assoc]
  · intro hmem
    rcases List.mem_append.mp hmem with hm | hm
    · by_cases h : q < 0
      · rw [if_pos h] at hm
        exact (by decide : ('.' : Char) ∉ ['-']) hm
      · rw [if_neg h] at hm
        exact (List.not_mem_nil '.') hm
    · exact absurd (natDigs_all_digit _ '.' hm) (by decide)
  · exact digitChar_isDigit
      ((Nat.div_lt_iff_lt_mul (by norm_num)).mpr (Nat.mod_lt _ (by norm_num)))
  · exact digitChar_isDigit (Nat.mod_lt _ (by norm_num))

/-- The strings JavaScript prints for the non-finite numbers. -/
def jsNonFiniteStrings : List Str :=
  ["NaN".toList, "Infinity".toList, "-Infinity".toList]

theorem plus_mem_jsToStringBigInt (a : Nat) : '+' ∈ jsToStringBigInt a := by
  rw [jsToStringBigInt]
  exact List.mem_append.mpr (Or.inr (List.mem_cons_of_mem _ (List.mem_cons_self _ _)))

/-- `toFixed` output is never a non-finite rendering: below `10^21` it
contains a decimal point, at or above it contains the `+` of the exponent,
and none of `"NaN"`, `"Infinity"`, `"-Infinity"` contains either. -/
theorem toFixed2_not_nonfinite (q : ℚ) : toFixed2 q ∉ jsNonFiniteStrings := by
  intro hmem
  simp only [jsNonFiniteStrings, List.mem_cons, List.not_mem_nil, or_false] at hmem
  by_cases hbig : (10 : ℚ) ^ 21 ≤ |q|
  · have hplus : '+' ∈ toFixed2 q := by
      simp only [toFixed2]
      rw [if_pos hbig]
      exact List.mem_append.mpr (Or.inr (plus_mem_jsToStringBigInt _))
    rcases hmem with h | h | h <;> rw [h] at hplus <;> exact absurd hplus (by decide)
  · obtain ⟨pre, a, b, heq, _, _, _⟩ := toFixed2_shape q (not_le.mp hbig)
    have hdot : '.' ∈ toFixed2 q := by
      rw [heq]
      exact List.mem_append.mpr (Or.inr (List.mem_cons_self _ _))
    rcases hmem with h | h | h <;> rw [h] at hdot <;> exact absurd hdot (by decide)

theorem formatMoney_not_nonfinite (n : JSNum) :
    formatMoney n ∉ jsNonFiniteStrings :=
  toFixed2_not_nonfinite _

/-- C3 (amended): `formatMoney` renders every finite input of magnitude
below `10^21` with exactly one decimal point followed by exactly two digits,
and renders every non-finite input as `"0.00"`; at `10^21` and above,
ECMAScript `toFixed` falls back to the exponential `ToString` form, which
carries no two-digit fraction. -/
theorem formatMoney_spec :
    (∀ q : ℚ, |q| < 10 ^ 21 →
        ∃ pre a b, formatMoney (.fin q) = pre ++ '.' :: a :: [b] ∧
          '.' ∉ pre ∧ a.isDigit = true ∧ b.isDigit = true) ∧
    formatMoney .nan = '0' :: '.' :: '0' :: '0' :: [] ∧
    formatMoney .inf = '0' :: '.' :: '0' :: '0' :: [] ∧
    formatMoney .neginf = '0' :: '.' :: '0' :: '0' :: [] := by
  have hz : toFixed2 0 = '0' :: '.' :: '0' :: '0' :: [] := by
    have habs : |(0 : ℚ)| = 0 := abs_zero
    have hbig : ¬ ((10 : ℚ) ^ 21 ≤ |(0 : ℚ)|) := by
      rw [habs]
      norm_num
    have hneg : ¬ ((0 : ℚ) < 0) := lt_irrefl 0
    have hc : (|(0 : ℚ)| * 100 + 1 / 2).floor = 0 := by
      rw [habs, (Rat.floor_def' _).trans Rat.floor_def.symm]
      norm_num
    simp only [toFixed2, hc, if_neg hbig, if_neg hneg]
    decide
  exact ⟨fun q hq => toFixed2_shape q hq, hz, hz, hz⟩

/-- Witness for C3's amended shape statement at a concrete finite input. -/
theorem formatMoney_spec_witness :
    ∃ pre a b, formatMoney (.fin 6) = pre ++ '.' :: a :: [b] ∧
      '.' ∉ pre ∧ a.isDigit = true ∧ b.isDigit = true :=
  formatMoney_spec.1 6 (by rw [show |(6 : ℚ)| = 6 from abs_of_nonneg (by norm_num)]; norm_num)

/-- C3 (counterexample to the claim as stated): at the finite input `10^21`
the program prints the exponential `ToString` form `"1e+21"`, which contains
no decimal point at all, hence not two digits after a decimal point. -/
theorem formatMoney_counterexample :
    formatMoney (.fin (10 ^ 21)) = '1' :: 'e' :: '+' :: '2' :: '1' :: [] ∧
    '.' ∉ formatMoney (.fin (10 ^ 21)) := by
  have habs : |((10 : ℚ) ^ 21)| = 10 ^ 21 := abs_of_nonneg (by positivity)
  have hbig : (10 : ℚ) ^ 21 ≤ |((10 : ℚ) ^ 21)| := by rw [habs]
  have hneg : ¬ ((10 : ℚ) ^ 21 < 0) := not_lt.mpr (by positivity)
  have htn : (|((10 : ℚ) ^ 21)|).floor.toNat = 10 ^ 21 := by
    rw [habs, (Rat.floor_def' _).trans Rat.floor_def.symm,
      show ((10 : ℚ) ^ 21) = ((10 ^ 21 : ℤ) : ℚ) by push_cast; ring,
      Int.floor_intCast]
    decide
  have h : formatMoney (.fin (10 ^ 21)) = '1' :: 'e' :: '+' :: '2' :: '1' :: [] := by
    show toFixed2 (10 ^ 21) = _
    simp only [toFixed2, htn]
    rw [if_pos hbig, if_neg hneg]
    decide
  refine ⟨h, ?_⟩
  rw [h]
  decide

/-- A rendered line item of the item table: quantity and line total as they
reach `renderReceipt` (post the `Number(·)` coercions of the source). -/
structure RowItem where
  quantity : JSNum
  amount : JSNum

/-- `const qtyN = toInt(it.quantity, 1)`. -/
def rowQty (it : RowItem) : ℚ := toInt it.quantity 1

/-- `const unitPrice = qtyN ? lineTotal / qtyN : lineTotal` — the quantity is
truthy exactly when it is non-zero (it is always finite). -/
def rowUnitPrice (it : RowItem) : JSNum :=
  if rowQty it ≠ 0 then jsDiv it.amount (.fin (rowQty it)) else it.amount

/-- C2: the unit price is `lineTotal / quantity` for positive quantities and
`lineTotal` as-is for a zero quantity (no division by zero is taken), and the
printed price and amount strings are never the `NaN`, `Infinity`, or
`-Infinity` renderings: non-finite values are replaced by `0` before
formatting, and `toFixed` output never takes one of those shapes. -/
theorem itemRow_unitPrice_spec (it : RowItem) :
    (0 < rowQty it → rowUnitPrice it = jsDiv it.amount (.fin (rowQty it))) ∧
    (rowQty it = 0 → rowUnitPrice it = it.amount) ∧
    formatMoney (rowUnitPrice it) ∉ jsNonFiniteStrings ∧
    formatMoney it.amount ∉ jsNonFiniteStrings := by
  refine ⟨?_, ?_, ?_, ?_⟩
  · intro h
    rw [rowUnitPrice, if_pos (ne_of_gt h)]
  · intro h
    rw [rowUnitPrice, if_neg (by simp [h])]
  · exact formatMoney_not_nonfinite _
  · exact formatMoney_not_nonfinite _

/-- Witness for C2 at a concrete item (`quantity = 2`, `lineTotal = 6`). -/
theorem itemRow_unitPrice_spec_witness :
    0 < rowQty ⟨.fin 2, .fin 6⟩ ∧
    rowUnitPrice ⟨.fin 2, .fin 6⟩ = jsDiv (.fin 6) (.fin (rowQty ⟨.fin 2, .fin 6⟩)) ∧
    rowUnitPrice ⟨.fin 0, .fin 6⟩ = .fin 6 := by
  refine ⟨?_, ?_, ?_⟩
  · norm_num [rowQty, toInt]
  · exact (itemRow_unitPrice_spec ⟨.fin 2, .fin 6⟩).1 (by norm_num [rowQty, toInt])
  · exact (itemRow_unitPrice_spec ⟨.fin 0, .fin 6⟩).2.1 (by norm_num [rowQty, toInt])

/-! ### Printer profiles (`src/services/prefs.ts`) -/

/-- A stored network printer profile; optional fields model the optional
members of the TypeScript `NetPrinterProfile` (ports are modelled as `Nat`:
stored ports are non-negative integers, and both `normalizeProfile` and
`normalizePort` map `0` to the default exactly as the `> 0` checks do). -/
structure NetPrinterProfile where
  name : Option Str
  host : Str
  port : Option Nat
  widthDots : Option Nat
  enabled : Option Bool
  copies : Option Nat
  isDefault : Option Bool
deriving DecidableEq

/-- `DEFAULT_NET_PORT` of `prefs.ts`. -/
def DEFAULT_NET_PORT : Nat := 9100

/-- `DEFAULT_WIDTH_DOTS` of `prefs.ts`. -/
def DEFAULT_WIDTH_DOTS : Nat := 576

namespace Prefs

/-- `normalizeProfile` of `prefs.ts`: fill every optional field with its
default without mutating the original. -/
def normalizeProfile (p : NetPrinterProfile) : NetPrinterProfile :=
  { name := some (p.name.getD p.host)
    host := p.host
    port := some (match p.port with
      | some n => if 0 < n then n else DEFAULT_NET_PORT
      | none => DEFAULT_NET_PORT)
    widthDots := some (match p.widthDots with
      | some w => if w = 384 ∨ w = 576 then w else DEFAULT_WIDTH_DOTS
      | none => DEFAULT_WIDTH_DOTS)
    enabled := some (p.enabled.getD true)
    copies := some (match p.copies with
      | some n => if 0 < n then n else 1
      | none => 1)
    isDefault := some (p.isDefault.getD false) }

/-- The trailing run of decimal digits of a string. -/
def trailingDigits (s : Str) : Str :=
  (s.reverse.takeWhile Char.isDigit).reverse

/-- `parseIpToken` of `prefs.ts`: a token matching `/:(\d{2,5})$/` splits
into host and port (2–5 trailing digits immediately after a colon); anything
else is a bare host.  Empty hosts yield `none`. -/
def parseIpToken (tok : Str) : Option (Str × Option Nat) :=
  let t := jsTrim tok
  if t = [] then none
  else
    let ds := trailingDigits t
    let pre := t.take (t.length - ds.length)
    if 2 ≤ ds.length ∧ ds.length ≤ 5 ∧ pre.getLast? = some ':' then
      let host := pre.dropLast
      if host = [] then none else some (host, some (digitsVal ds))
    else some (t, none)

/-- `resolveSavedPrinterByIpTokenInList` of `prefs.ts`: normalize the stored
list, then find the first enabled profile whose host equals the token's host
and, when the token carries a port, whose (defaulted) port equals it. -/
def resolveSavedPrinterByIpTokenInList (tok : Str) (list : List NetPrinterProfile) :
    Option NetPrinterProfile :=
  match parseIpToken tok with
  | none => none
  | some (host, portOpt) =>
    (list.map normalizeProfile).find? (fun p =>
      (p.enabled.getD false) &&
      (p.host == host) &&
      (match portOpt with
       | some port =>
         (match p.port with
          | some pp => if 0 < pp then pp else DEFAULT_NET_PORT
          | none => DEFAULT_NET_PORT) == port
       | none => true))

end Prefs

/-! ### Hint-token matching (`src/screens/DrawerContent.tsx`) -/

namespace Drawer

/-- `parseIpToken` of `DrawerContent.tsx`: trim, split on `:`, trim the
parts; a missing or empty port slot means "no port" and the default 9100;
`Number(p) || DEFAULT_NET_PORT` maps a zero or non-numeric port text to the
default as well (`jsNumberDigits` models `Number` on the decimal-digit port
texts these tokens carry). -/
def parseIpToken (token : Str) : Str × Nat × Bool :=
  let raw := jsTrim token
  let parts := (splitOnChar ':' raw).map jsTrim
  let hPart := parts.headD []
  let pPart := parts.getD 1 []
  if pPart = [] then (hPart, DEFAULT_NET_PORT, false)
  else
    (hPart,
      (match jsNumberDigits pPart with
       | some n => if n = 0 then DEFAULT_NET_PORT else n
       | none => DEFAULT_NET_PORT),
      true)

def tokenHost (tok : Str) : Str := (parseIpToken tok).1

def tokenPort (tok : Str) : Nat := (parseIpToken tok).2.1

def tokenHasPort (tok : Str) : Bool := (parseIpToken tok).2.2

/-- `normalizeHost` of `DrawerContent.tsx`. -/
def normalizeHost (h : Str) : Str := jsTrim h

/-- `normalizePort` of `DrawerContent.tsx`: a positive finite number, else
the default. -/
def normalizePort (p : Option Nat) : Nat :=
  match p with
  | some n => if 0 < n then n else DEFAULT_NET_PORT
  | none => DEFAULT_NET_PORT

/-- Score of one profile against a parsed token, mirroring the loop body of
`findSavedByIpToken`: with a port, only an exact (host, port) pair scores
(100); without one, a host match scores 55 when the profile sits on the
default port and 50 otherwise. -/
def scoreProfile (hasPort : Bool) (tHost : Str) (tPort : Nat)
    (prof : NetPrinterProfile) : Option (Nat × NetPrinterProfile) :=
  let pHost := normalizeHost prof.host
  let pPort := normalizePort prof.port
  if pHost = [] then none
  else if hasPort then
    (if pHost = tHost ∧ pPort = tPort then some (100, prof) else none)
  else
    (if pHost = tHost then
      some ((if pPort = DEFAULT_NET_PORT then 55 else 50), prof)
     else none)

def scoredList (tok : Str) (list : List NetPrinterProfile) :
    List (Nat × NetPrinterProfile) :=
  list.filterMap (scoreProfile (tokenHasPort tok) (tokenHost tok) (tokenPort tok))

/-- First entry of maximal score: the head of the stable descending sort
`scored.sort((a, b) => b.score - a.score)` the source takes `[0]` of.  Ties
keep the earlier entry, as a stable sort does. -/
def pickBest : List (Nat × NetPrinterProfile) → Option (Nat × NetPrinterProfile)
  | [] => none
  | x :: xs =>
    match pickBest xs with
    | none => some x
    | some y => some (if x.1 < y.1 then y else x)

/-- `findSavedByIpToken` of `DrawerContent.tsx`. -/
def findSavedByIpToken (tok : Str) (list : List NetPrinterProfile) :
    Option NetPrinterProfile :=
  if tokenHost tok = [] then none
  else
    match pickBest (scoredList tok list) with
    | none => none
    | some sp => some sp.2

theorem pickBest_mem :
    ∀ (l : List (Nat × NetPrinterProfile)) (y), pickBest l = some y → y ∈ l := by
  intro l
  induction l with
  | nil => intro y hy; simp [pickBest] at hy
  | cons x xs ih =>
    intro y hy
    rw [pickBest] at hy
    cases hpb : pickBest xs with
    | none =>
      rw [hpb] at hy
      simp only [Option.some.injEq] at hy
      exact hy ▸ List.mem_cons_self x xs
    | some z =>
      rw [hpb] at hy
      simp only [Option.some.injEq] at hy
      by_cases hlt : x.1 < z.1
      · rw [if_pos hlt] at hy
        exact List.mem_cons_of_mem x (hy ▸ ih z hpb)
      · rw [if_neg hlt] at hy
        exact hy ▸ List.mem_cons_self x xs

theorem pickBest_isSome (l : List (Nat × NetPrinterProfile)) (h : l ≠ []) :
    ∃ y, pickBest l = some y := by
  cases l with
  | nil => exact absurd rfl h
  | cons x xs =>
    rw [pickBest]
    cases pickBest xs with
    | none => exact ⟨x, rfl⟩
    | some y => exact ⟨if x.1 < y.1 then y else x, rfl⟩

theorem pickBest_maximal :
    ∀ (l : List (Nat × NetPrinterProfile)) (y), pickBest l = some y →
      ∀ z ∈ l, z.1 ≤ y.1 := by
  intro l
  induction l with
  | nil => intro y hy; simp [pickBest] at hy
  | cons x xs ih =>
    intro y hy z hz
    rw [pickBest] at hy
    rcases List.mem_cons.mp hz with hz | hz
    · subst hz
      cases hpb : pickBest xs with
      | none =>
        rw [hpb] at hy
        simp only [Option.some.injEq] at hy
        exact le_of_eq (congrArg Prod.fst hy)
      | some w =>
        rw [hpb] at hy
        simp only [Option.some.injEq] at hy
        by_cases hlt : z.1 < w.1
        · rw [if_pos hlt] at hy
          subst hy
          omega
        · rw [if_neg hlt] at hy
          subst hy
          exact le_refl _
    · have hxs : xs ≠ [] := by
        intro hh
        subst hh
        simp at hz
      obtain ⟨w, hw⟩ := pickBest_isSome xs hxs
      have hzw := ih w hw z hz
      rw [hw] at hy
      simp only [Option.some.injEq] at hy
      by_cases hlt : x.1 < w.1
      · rw [if_pos hlt] at hy
        subst hy
        exact hzw
      · rw [if_neg hlt] at hy
        subst hy
        omega

theorem scoreProfile_inv (hasPort : Bool) (tHost : Str) (tPort : Nat)
    (prof : NetPrinterProfile) (s : Nat) (pr : NetPrinterProfile)
    (h : scoreProfile hasPort tHost tPort prof = some (s, pr)) :
    pr = prof ∧ normalizeHost prof.host = tHost ∧
    (hasPort = true → normalizePort prof.port = tPort ∧ s = 100) ∧
    (hasPort = false →
      s = (if normalizePort prof.port = DEFAULT_NET_PORT then 55 else 50)) := by
  rw [scoreProfile] at h
  by_cases h0 : normalizeHost prof.host = []
  · rw [if_pos h0] at h
    exact absurd h (by simp)
  · rw [if_neg h0] at h
    cases hasPort with
    | true =>
      rw [if_pos rfl] at h
      by_cases hm : normalizeHost prof.host = tHost ∧ normalizePort prof.port = tPort
      · rw [if_pos hm] at h
        simp only [Option.some.injEq, Prod.mk.injEq] at h
        exact ⟨h.2.symm, hm.1, fun _ => ⟨hm.2, h.1.symm⟩, by simp⟩
      · rw [if_neg hm] at h
        exact absurd h (by simp)
    | false =>
      rw [if_neg (by simp)] at h
      by_cases hm : normalizeHost prof.host = tHost
      · rw [if_pos hm] at h
        simp only [Option.some.injEq, Prod.mk.injEq] at h
        exact ⟨h.2.symm, hm, by simp, fun _ => h.1.symm⟩
      · rw [if_neg hm] at h
        exact absurd h (by simp)

theorem findSavedByIpToken_some (tok : Str) (list : List NetPrinterProfile)
    (prof : NetPrinterProfile) (h : findSavedByIpToken tok list = some prof) :
    ∃ s, (s, prof) ∈ scoredList tok list ∧
      (∀ z ∈ scoredList tok list, z.1 ≤ s) := by
  rw [findSavedByIpToken] at h
  by_cases h0 : tokenHost tok = []
  · rw [if_pos h0] at h
    exact absurd h (by simp)
  · rw [if_neg h0] at h
    cases hpb : pickBest (scoredList tok list) with
    | none =>
      rw [hpb] at h
      exact absurd h (by simp)
    | some sp =>
      rw [hpb] at h
      simp only [Option.some.injEq] at h
      refine ⟨sp.1, ?_, ?_⟩
      · have := pickBest_mem _ sp hpb
        rwa [← h]
      · exact pickBest_maximal _ sp hpb

/-- The stored profile of the specification's first routing scenario. -/
def profCashier : NetPrinterProfile :=
  { name := none, host := "192.168.1.10".toList, port := some 9100,
    widthDots := some 576, enabled := some true, copies := some 1,
    isDefault := some false }

/-- A second profile on the same host at port 9101. -/
def profKitchen9101 : NetPrinterProfile :=
  { name := none, host := "192.168.1.10".toList, port := some 9101,
    widthDots := some 576, enabled := some true, copies := some 1,
    isDefault := some false }

/-- C5: a `host:port` hint token matches a stored profile only on exact host
and (defaulted) port; a bare-host token matches by host alone and, when
several stored profiles share the host, the one on the default port 9100 is
preferred; in particular the two concrete scenarios of the specification
hold, the first with exactly one scored match. -/
theorem findSavedByIpToken_spec :
    (∀ tok list prof, tokenHasPort tok = true →
        findSavedByIpToken tok list = some prof →
        normalizeHost prof.host = tokenHost tok ∧
        normalizePort prof.port = tokenPort tok) ∧
    (∀ tok list prof, tokenHasPort tok = false →
        findSavedByIpToken tok list = some prof →
        normalizeHost prof.host = tokenHost tok) ∧
    (∀ tok list, tokenHasPort tok = false → tokenHost tok ≠ [] →
        (∃ p ∈ list, normalizeHost p.host = tokenHost tok ∧
            normalizePort p.port = DEFAULT_NET_PORT) →
        ∃ prof, findSavedByIpToken tok list = some prof ∧
          normalizePort prof.port = DEFAULT_NET_PORT) ∧
    (findSavedByIpToken ("192.168.1.10:9100".toList) [profCashier] = some profCashier ∧
      (scoredList ("192.168.1.10:9100".toList) [profCashier]).length = 1) ∧
    findSavedByIpToken ("192.168.1.10".toList) [profKitchen9101, profCashier] =
      some profCashier := by
  refine ⟨?_, ?_, ?_, by decide, by decide⟩
  · intro tok list prof hput hfind
    obtain ⟨s, hmem, _⟩ := findSavedByIpToken_some tok list prof hfind
    obtain ⟨p, _, hsc⟩ := List.mem_filterMap.mp hmem
    obtain ⟨hpr, hhost, hport, _⟩ := scoreProfile_inv _ _ _ _ _ _ hsc
    subst hpr
    exact ⟨hhost, (hport hput).1⟩
  · intro tok list prof hput hfind
    obtain ⟨s, hmem, _⟩ := findSavedByIpToken_some tok list prof hfind
    obtain ⟨p, _, hsc⟩ := List.mem_filterMap.mp hmem
    obtain ⟨hpr, hhost, _, _⟩ := scoreProfile_inv _ _ _ _ _ _ hsc
    subst hpr
    exact hhost
  · intro tok list hfp hth hex
    obtain ⟨p, hpmem, hphost, hpport⟩ := hex
    have hne : normalizeHost p.host ≠ [] := by
      rw [hphost]
      exact hth
    have hsc : scoreProfile (tokenHasPort tok) (tokenHost tok) (tokenPort tok) p
        = some (55, p) := by
      rw [hfp]
      simp only [scoreProfile]
      rw [if_neg hne]
      simp only [Bool.false_eq_true, if_false]
      rw [if_pos hphost, hpport]
      simp
    have hmem : (55, p) ∈ scoredList tok list :=
      List.mem_filterMap.mpr ⟨p, hpmem, hsc⟩
    have hnonempty : scoredList tok list ≠ [] := by
      intro hh
      rw [hh] at hmem
      exact List.not_mem_nil _ hmem
    obtain ⟨y, hy⟩ := pickBest_isSome _ hnonempty
    have hy55 : 55 ≤ y.1 := pickBest_maximal _ y hy _ hmem
    obtain ⟨q, _, hq⟩ := List.mem_filterMap.mp (pickBest_mem _ y hy)
    have hq' : scoreProfile (tokenHasPort tok) (tokenHost tok) (tokenPort tok) q
        = some (y.1, y.2) := by
      rw [hq]
    obtain ⟨hqr, _, _, hqs⟩ := scoreProfile_inv _ _ _ _ _ _ hq'
    have hqs' := hqs hfp
    refine ⟨y.2, ?_, ?_⟩
    · rw [findSavedByIpToken, if_neg hth, hy]
    · rw [hqr]
      by_cases hdef : normalizePort q.port = DEFAULT_NET_PORT
      · exact hdef
      · rw [if_neg hdef] at hqs'
        omega

/-- Witness for C5's universally quantified parts, discharged at the first
concrete scenario. -/
theorem findSavedByIpToken_spec_witness :
    normalizeHost profCashier.host = tokenHost ("192.168.1.10:9100".toList) ∧
    normalizePort profCashier.port = tokenPort ("192.168.1.10:9100".toList) := by
  exact findSavedByIpToken_spec.1 ("192.168.1.10:9100".toList) [profCashier]
    profCashier (by decide) (by decide)

end Drawer

/-- C10: `resolveSavedPrinterByIpTokenInList` never returns a disabled
profile — any returned profile carries `enabled = true`, and a disabled
profile at the head of the list is skipped entirely, leaving the result
unchanged, whatever its host and port. -/
theorem resolveSavedPrinter_disabled_excluded :
    (∀ tok list prof,
        Prefs.resolveSavedPrinterByIpTokenInList tok list = some prof →
        prof.enabled = some true) ∧
    (∀ tok (d : NetPrinterProfile) rest, d.enabled = some false →
        Prefs.resolveSavedPrinterByIpTokenInList tok (d :: rest) =
          Prefs.resolveSavedPrinterByIpTokenInList tok rest) := by
  constructor
  · intro tok list prof hres
    rw [Prefs.resolveSavedPrinterByIpTokenInList] at hres
    cases hp : Prefs.parseIpToken tok with
    | none =>
      rw [hp] at hres
      exact absurd hres (by simp)
    | some hostPort =>
      rw [hp] at hres
      have hpred := List.find?_some hres
      have henabled : prof.enabled.getD false = true := by
        by_contra hq
        rw [Bool.not_eq_true] at hq
        rw [hq] at hpred
        simp at hpred
      cases he : prof.enabled with
      | none =>
        rw [he] at henabled
        simp at henabled
      | some b =>
        rw [he] at henabled
        simp only [Option.getD_some] at henabled
        rw [henabled]
  · intro tok d rest hdis
    rw [Prefs.resolveSavedPrinterByIpTokenInList,
      Prefs.resolveSavedPrinterByIpTokenInList]
    cases hp : Prefs.parseIpToken tok with
    | none => rfl
    | some hostPort =>
      obtain ⟨host, portOpt⟩ := hostPort
      dsimp only
      rw [List.map_cons, List.find?_cons_of_neg]
      simp [Prefs.normalizeProfile, hdis]

/-! ### Routing targets (`handleMultiLanPrint` in `DrawerContent.tsx`) -/

namespace Drawer

/-- A kitchen line item, reduced to the two fields the routing identity key
reads (`item_name` and `display_index`, both already coerced to strings by
the template literal; a falsy `display_index` is the empty string). -/
structure KItem where
  item_name : Str
  display_index : Str
deriving DecidableEq

/-- One `kitchen_print` block as `handleMultiLanPrint` consumes it: its
extracted hint tokens (`getKitchenIpsFromBlock`), its `individual_print`
flag (`String(block?.individual_print ?? '0') === '1'`), and its
`data.itemdata` items. -/
structure KBlock where
  ips : List Str
  individual : Bool
  items : List KItem
deriving DecidableEq

inductive TKind where
  | cashier
  | kitchen
deriving DecidableEq

/-- One routing target: `{profile, type, blockIdx?, item?}`. -/
structure Target where
  profile : NetPrinterProfile
  kind : TKind
  blockIdx : Option Nat
  item : Option KItem
deriving DecidableEq

/-- `t.profile.port || DEFAULT_NET_PORT` — zero and absent ports are falsy. -/
def effPort (p : Option Nat) : Nat :=
  match p with
  | some n => if n = 0 then DEFAULT_NET_PORT else n
  | none => DEFAULT_NET_PORT

/-- The item-identity part of the dedupe key: `name#displayIndex` for
per-item targets, empty otherwise (`t.item ? ... : ''`). -/
def itemKeyStr (o : Option KItem) : Str :=
  match o with
  | none => []
  | some it => it.item_name ++ '#' :: it.display_index

def kindStr : TKind → Str
  | .cashier => "cashier".toList
  | .kitchen => "kitchen".toList

/-- `t.blockIdx ?? -1` rendered by the template literal. -/
def idxStr : Option Nat → Str
  | none => '-' :: '1' :: []
  | some i => natDigs i

/-- The dedupe key string
`host:port|type|b(blockIdx ?? -1)|itemKey` of `handleMultiLanPrint`. -/
def targetKey (t : Target) : Str :=
  t.profile.host ++ ':' :: natDigs (effPort t.profile.port) ++
    '|' :: kindStr t.kind ++ '|' :: 'b' :: idxStr t.blockIdx ++
    '|' :: itemKeyStr t.item

/-- Target construction of `handleMultiLanPrint`: cashier targets from the
setting block's tokens, then, for every kitchen block in order and every one
of its tokens that resolves, either one target per item
(`individual_print`) or a single group target. -/
def buildTargets (cashierIps : List Str) (kitchens : List KBlock)
    (list : List NetPrinterProfile) : List Target :=
  (cashierIps.filterMap (fun ip =>
    (findSavedByIpToken ip list).map (fun prof =>
      { profile := prof, kind := TKind.cashier, blockIdx := none, item := none }))) ++
  (kitchens.enum.flatMap (fun p =>
    p.2.ips.flatMap (fun ip =>
      match findSavedByIpToken ip list with
      | none => []
      | some prof =>
        if p.2.individual then
          p.2.items.map (fun it =>
            { profile := prof, kind := TKind.kitchen, blockIdx := some p.1,
              item := some it })
        else
          [{ profile := prof, kind := TKind.kitchen, blockIdx := some p.1,
             item := none }])))

/-- The `seen`-set dedupe filter of `handleMultiLanPrint`. -/
def dedupeGo : List Str → List Target → List Target
  | _, [] => []
  | seen, t :: ts =>
    if targetKey t ∈ seen then dedupeGo seen ts
    else t :: dedupeGo (targetKey t :: seen) ts

def dedupeTargets (ts : List Target) : List Target := dedupeGo [] ts

/-- The executed target list of one routing job. -/
def uniqueTargets (cashierIps : List Str) (kitchens : List KBlock)
    (list : List NetPrinterProfile) : List Target :=
  dedupeTargets (buildTargets cashierIps kitchens list)

/-- The `{handled, matched}` result contract of `handleMultiLanPrint`. -/
def handleMultiLanPrintResult (cashierIps : List Str) (kitchens : List KBlock)
    (list : List NetPrinterProfile) : Bool × Bool :=
  if cashierIps = [] ∧ kitchens.any (fun k => !k.ips.isEmpty) = false then
    (false, false)
  else if buildTargets cashierIps kitchens list = [] then (true, false)
  else (true, true)

theorem dedupeGo_spec :
    ∀ (ts : List Target) (seen : List Str),
      ((dedupeGo seen ts).map targetKey).Nodup ∧
      ∀ t ∈ dedupeGo seen ts, targetKey t ∉ seen := by
  intro ts
  induction ts with
  | nil => intro seen; exact ⟨List.nodup_nil, by simp [dedupeGo]⟩
  | cons t ts ih =>
    intro seen
    rw [dedupeGo]
    by_cases hmem : targetKey t ∈ seen
    · rw [if_pos hmem]
      exact ih seen
    · rw [if_neg hmem]
      obtain ⟨hnd, hout⟩ := ih (targetKey t :: seen)
      refine ⟨?_, ?_⟩
      · rw [List.map_cons, List.nodup_cons]
        refine ⟨?_, hnd⟩
        intro hk
        obtain ⟨u, hu, hku⟩ := List.mem_map.mp hk
        exact hout u hu (hku ▸ List.mem_cons_self _ _)
      · intro u hu
        rcases List.mem_cons.mp hu with hu | hu
        · exact hu ▸ hmem
        · intro hus
          exact hout u hu (List.mem_cons_of_mem _ hus)

theorem dedupeGo_eq_self :
    ∀ (ts : List Target) (seen : List Str),
      (ts.map targetKey).Nodup → (∀ t ∈ ts, targetKey t ∉ seen) →
      dedupeGo seen ts = ts := by
  intro ts
  induction ts with
  | nil => intro seen _ _; rfl
  | cons t ts ih =>
    intro seen hnd hout
    rw [dedupeGo, if_neg (hout t (List.mem_cons_self t ts))]
    rw [List.map_cons, List.nodup_cons] at hnd
    refine congrArg (t :: ·) (ih _ hnd.2 ?_)
    intro u hu
    intro hus
    rcases List.mem_cons.mp hus with hus | hus
    · exact hnd.1 (hus ▸ List.mem_map_of_mem targetKey hu)
    · exact hout u (List.mem_cons_of_mem t hu) hus

/-- C7: within one routing job the executed target list never contains two
targets agreeing on host, (defaulted) port, section kind, block index, and
item-identity key — the dedupe key is exactly that tuple rendered as a
string, so such a pair would collide. -/
theorem routing_dedupe_spec (cashierIps : List Str) (kitchens : List KBlock)
    (list : List NetPrinterProfile) :
    List.Pairwise (fun a b : Target =>
        ¬(a.profile.host = b.profile.host ∧
          effPort a.profile.port = effPort b.profile.port ∧
          a.kind = b.kind ∧ a.blockIdx = b.blockIdx ∧
          itemKeyStr a.item = itemKeyStr b.item))
      (uniqueTargets cashierIps kitchens list) := by
  have hnd := (dedupeGo_spec (buildTargets cashierIps kitchens list) []).1
  rw [List.Nodup, List.pairwise_map] at hnd
  refine hnd.imp ?_
  intro a b hne hcomp
  obtain ⟨h1, h2, h3, h4, h5⟩ := hcomp
  exact hne (by rw [targetKey, targetKey, h1, h2, h3, h4, h5])

/-- Abbreviation for the single-item kitchen target built by the
individual-print expansion. -/
def mkKitchenTarget (prof : NetPrinterProfile) (idx : Nat) (it : KItem) : Target :=
  { profile := prof, kind := TKind.kitchen, blockIdx := some idx, item := some it }

/-- The fixed part of the dedupe key shared by all single-item targets of one
profile and block index. -/
def kitchenKeyStem (prof : NetPrinterProfile) (idx : Nat) : Str :=
  prof.host ++ ':' :: natDigs (effPort prof.port) ++ '|' :: kindStr TKind.kitchen ++
    '|' :: 'b' :: idxStr (some idx) ++ ['|']

theorem targetKey_mkKitchenTarget (prof : NetPrinterProfile) (idx : Nat) (it : KItem) :
    targetKey (mkKitchenTarget prof idx it) =
      kitchenKeyStem prof idx ++ itemKeyStr (some it) := by
  simp [targetKey, mkKitchenTarget, kitchenKeyStem, List.append_assoc]

/-- C6 (amended): a kitchen block with `individualPrint` set, a hint token
matched to a stored profile, and pairwise-distinct item-identity keys yields,
as the executed target list of its job, exactly one single-item target per
line item, in order. -/
theorem kitchen_individual_expansion (b : KBlock) (list : List NetPrinterProfile)
    (tok : Str) (prof : NetPrinterProfile)
    (hind : b.individual = true) (hips : b.ips = [tok])
    (hfind : findSavedByIpToken tok list = some prof)
    (hkeys : (b.items.map (fun it => itemKeyStr (some it))).Nodup) :
    uniqueTargets [] [b] list = b.items.map (mkKitchenTarget prof 0) ∧
    (uniqueTargets [] [b] list).length = b.items.length := by
  have hbuild : buildTargets [] [b] list = b.items.map (mkKitchenTarget prof 0) := by
    rw [buildTargets, List.filterMap_nil, List.nil_append]
    have henum : ([b] : List KBlock).enum = [(0, b)] := rfl
    rw [henum, List.flatMap_cons, List.flatMap_nil, List.append_nil]
    dsimp only
    rw [hips, List.flatMap_cons, List.flatMap_nil, List.append_nil, hfind]
    dsimp only
    rw [hind, if_pos rfl]
    rfl
  have hkeymap : ((b.items.map (mkKitchenTarget prof 0)).map targetKey).Nodup := by
    rw [List.map_map]
    have hcong : b.items.map (targetKey ∘ mkKitchenTarget prof 0) =
        b.items.map ((kitchenKeyStem prof 0 ++ ·) ∘ (fun it => itemKeyStr (some it))) := by
      refine List.map_congr_left ?_
      intro it _
      exact targetKey_mkKitchenTarget prof 0 it
    rw [hcong, ← List.map_map]
    refine List.Nodup.map ?_ hkeys
    intro k1 k2 hk
    exact List.append_cancel_left hk
  have hdedupe : dedupeTargets (b.items.map (mkKitchenTarget prof 0)) =
      b.items.map (mkKitchenTarget prof 0) := by
    refine dedupeGo_eq_self _ [] hkeymap ?_
    intro t _
    exact List.not_mem_nil _
  refine ⟨?_, ?_⟩
  · rw [uniqueTargets, hbuild, hdedupe]
  · rw [uniqueTargets, hbuild, hdedupe, List.length_map]

/-- A duplicated item: same name, no display index. -/
def dupItem : KItem := { item_name := "Burger".toList, display_index := [] }

/-- An individual-print kitchen block listing the duplicated item twice. -/
def dupBlock : KBlock :=
  { ips := ["10.0.0.5".toList], individual := true, items := [dupItem, dupItem] }

def profFive : NetPrinterProfile :=
  { name := none, host := "10.0.0.5".toList, port := some 9100,
    widthDots := some 576, enabled := some true, copies := some 1,
    isDefault := some false }

/-- C6 (counterexample to the claim as stated): an individual-print kitchen
block with two items whose identity keys coincide (same name, no display
index) and a matched profile produces only one executed target, not one per
line item. -/
theorem kitchen_individual_expansion_counterexample :
    dupBlock.items.length = 2 ∧
    findSavedByIpToken ("10.0.0.5".toList) [profFive] = some profFive ∧
    (uniqueTargets [] [dupBlock] [profFive]).length = 1 := by
  refine ⟨rfl, by decide, by decide⟩

def itemTea1 : KItem := { item_name := "Tea".toList, display_index := ['1'] }

def itemTea2 : KItem := { item_name := "Tea".toList, display_index := ['2'] }

def teaBlock : KBlock :=
  { ips := ["10.0.0.5".toList], individual := true, items := [itemTea1, itemTea2] }

/-- Witness for C6's amended theorem at a concrete two-item block with
distinct display indices. -/
theorem kitchen_individual_expansion_witness :
    uniqueTargets [] [teaBlock] [profFive] =
      [mkKitchenTarget profFive 0 itemTea1, mkKitchenTarget profFive 0 itemTea2] ∧
    (uniqueTargets [] [teaBlock] [profFive]).length = 2 := by
  have h := kitchen_individual_expansion teaBlock [profFive] ("10.0.0.5".toList)
    profFive rfl rfl (by decide) (by decide)
  exact ⟨h.1, h.2⟩

theorem exists_enumFrom_of_mem {α : Type} :
    ∀ (l : List α) (b : α), b ∈ l → ∀ n, ∃ i, (i, b) ∈ l.enumFrom n := by
  intro l
  induction l with
  | nil => intro b hb; cases hb
  | cons a as ih =>
    intro b hb n
    rw [List.enumFrom_cons]
    rcases List.mem_cons.mp hb with hb | hb
    · exact ⟨n, hb ▸ List.mem_cons_self _ _⟩
    · obtain ⟨i, hi⟩ := ih b hb (n + 1)
      exact ⟨i, List.mem_cons_of_mem _ hi⟩

theorem snd_mem_of_mem_enumFrom {α : Type} :
    ∀ (l : List α) (p : Nat × α) (n : Nat), p ∈ l.enumFrom n → p.2 ∈ l := by
  intro l
  induction l with
  | nil => intro p n hp; simp [List.enumFrom] at hp
  | cons a as ih =>
    intro p n hp
    rw [List.enumFrom_cons] at hp
    rcases List.mem_cons.mp hp with hp | hp
    · rw [hp]
      exact List.mem_cons_self _ _
    · exact List.mem_cons_of_mem _ (ih p (n + 1) hp)

theorem buildTargets_eq_nil_iff (cashierIps : List Str) (kitchens : List KBlock)
    (list : List NetPrinterProfile) :
    buildTargets cashierIps kitchens list = [] ↔
      ((∀ tok ∈ cashierIps, findSavedByIpToken tok list = none) ∧
       (∀ b ∈ kitchens, ∀ tok ∈ b.ips,
          findSavedByIpToken tok list = none ∨
            (b.individual = true ∧ b.items = []))) := by
  have hinner : ∀ (i : Nat) (b : KBlock) (tok : Str),
      ((match findSavedByIpToken tok list with
        | none => []
        | some prof =>
          if b.individual then
            b.items.map (fun it =>
              { profile := prof, kind := TKind.kitchen, blockIdx := some i,
                item := some it })
          else
            [{ profile := prof, kind := TKind.kitchen, blockIdx := some i,
               item := none }]) = ([] : List Target)) ↔
      (findSavedByIpToken tok list = none ∨ (b.individual = true ∧ b.items = [])) := by
    intro i b tok
    cases hf : findSavedByIpToken tok list with
    | none => simp
    | some prof =>
      dsimp only
      cases hbi : b.individual with
      | true => simp [List.map_eq_nil_iff]
      | false => simp
  rw [buildTargets, List.append_eq_nil, List.filterMap_eq_nil_iff,
    List.flatMap_eq_nil_iff]
  constructor
  · rintro ⟨hA, hB⟩
    refine ⟨?_, ?_⟩
    · intro tok htok
      have := hA tok htok
      rwa [Option.map_eq_none'] at this
    · intro b hb tok htok
      obtain ⟨i, hib⟩ := exists_enumFrom_of_mem kitchens b hb 0
      have hBi := hB (i, b) (by rwa [List.enum])
      rw [List.flatMap_eq_nil_iff] at hBi
      exact (hinner i b tok).mp (hBi tok htok)
  · rintro ⟨hA, hB⟩
    refine ⟨?_, ?_⟩
    · intro tok htok
      rw [Option.map_eq_none']
      exact hA tok htok
    · intro p hp
      rw [List.flatMap_eq_nil_iff]
      intro tok htok
      have hbmem : p.2 ∈ kitchens := snd_mem_of_mem_enumFrom kitchens p 0 (by rwa [List.enum] at hp)
      exact (hinner p.1 p.2 tok).mpr (hB p.2 hbmem tok htok)

/-- C8 (amended): `handled = false` exactly when the document carries no IP
hints at all, and `matched = true` exactly when at least one hint token both
resolves to a stored profile and contributes a target — a resolved token on
an individual-print kitchen block with no items contributes none. -/
theorem handleMultiLanPrint_result_contract (cashierIps : List Str)
    (kitchens : List KBlock) (list : List NetPrinterProfile) :
    ((handleMultiLanPrintResult cashierIps kitchens list).1 = false ↔
      (cashierIps = [] ∧ ∀ k ∈ kitchens, k.ips = [])) ∧
    ((handleMultiLanPrintResult cashierIps kitchens list).2 = true ↔
      ((∃ tok ∈ cashierIps, findSavedByIpToken tok list ≠ none) ∨
       (∃ b ∈ kitchens, ∃ tok ∈ b.ips, findSavedByIpToken tok list ≠ none ∧
          (b.individual = true → b.items ≠ [])))) := by
  have hC : (cashierIps = [] ∧ kitchens.any (fun k => !k.ips.isEmpty) = false) ↔
      (cashierIps = [] ∧ ∀ k ∈ kitchens, k.ips = []) := by
    constructor
    · rintro ⟨h1, h2⟩
      refine ⟨h1, ?_⟩
      intro k hk
      rw [List.any_eq_false] at h2
      have := h2 k hk
      rwa [Bool.not_eq_true', Bool.not_eq_false, List.isEmpty_iff] at this
    · rintro ⟨h1, h2⟩
      refine ⟨h1, ?_⟩
      rw [List.any_eq_false]
      intro k hk
      rw [Bool.not_eq_true', Bool.not_eq_false, List.isEmpty_iff]
      exact h2 k hk
  have hresolve : buildTargets cashierIps kitchens list ≠ [] ↔
      ((∃ tok ∈ cashierIps, findSavedByIpToken tok list ≠ none) ∨
       (∃ b ∈ kitchens, ∃ tok ∈ b.ips, findSavedByIpToken tok list ≠ none ∧
          (b.individual = true → b.items ≠ []))) := by
    rw [Ne, buildTargets_eq_nil_iff, not_and_or]
    constructor
    · rintro (h | h)
      · left
        push_neg at h
        exact h
      · right
        push_neg at h
        exact h
    · rintro (h | h)
      · left
        push_neg
        exact h
      · right
        push_neg
        exact h
  refine ⟨?_, ?_⟩
  · rw [handleMultiLanPrintResult]
    by_cases hc : cashierIps = [] ∧ kitchens.any (fun k => !k.ips.isEmpty) = false
    · rw [if_pos hc]
      exact iff_of_true rfl (hC.mp hc)
    · rw [if_neg hc]
      by_cases hb : buildTargets cashierIps kitchens list = []
      · rw [if_pos hb]
        constructor
        · intro h
          simp at h
        · intro hr
          exact absurd (hC.mpr hr) hc
      · rw [if_neg hb]
        constructor
        · intro h
          simp at h
        · intro hr
          exact absurd (hC.mpr hr) hc
  · rw [handleMultiLanPrintResult]
    by_cases hc : cashierIps = [] ∧ kitchens.any (fun k => !k.ips.isEmpty) = false
    · rw [if_pos hc]
      have hempty : buildTargets cashierIps kitchens list = [] := by
        rw [buildTargets_eq_nil_iff]
        obtain ⟨h1, h2⟩ := hC.mp hc
        refine ⟨?_, ?_⟩
        · intro tok htok
          rw [h1] at htok
          cases htok
        · intro b hb tok htok
          rw [h2 b hb] at htok
          cases htok
      constructor
      · intro h
        simp at h
      · intro hr
        exact absurd hempty (hresolve.mpr hr)
    · rw [if_neg hc]
      by_cases hb : buildTargets cashierIps kitchens list = []
      · rw [if_pos hb]
        constructor
        · intro h
          simp at h
        · intro hr
          exact absurd hb (of_not_not (fun hnn => (hresolve.mpr hr) hb))
      · rw [if_neg hb]
        exact iff_of_true rfl (hresolve.mp hb)

/-- An individual-print kitchen block with a resolvable hint but no items. -/
def emptyIndBlock : KBlock :=
  { ips := ["10.0.0.7".toList], individual := true, items := [] }

def profSeven : NetPrinterProfile :=
  { name := none, host := "10.0.0.7".toList, port := some 9100,
    widthDots := some 576, enabled := some true, copies := some 1,
    isDefault := some false }

/-- C8 (counterexample to the claim as stated): the document's only hint
token resolves to a stored profile, yet the result is
`handled = true, matched = false`, because the individual-print expansion of
an empty item list produces zero targets. -/
theorem handleMultiLanPrint_result_counterexample :
    findSavedByIpToken ("10.0.0.7".toList) [profSeven] = some profSeven ∧
    handleMultiLanPrintResult [] [emptyIndBlock] [profSeven] = (true, false) := by
  refine ⟨by decide, by decide⟩

end Drawer

/-- Witness for C10 at a concrete token and profile list (a disabled profile
whose host and port exactly equal the token's, followed by an enabled one). -/
theorem resolveSavedPrinter_disabled_excluded_witness :
    Prefs.resolveSavedPrinterByIpTokenInList ("10.0.0.9:9100".toList)
        [{ name := none, host := "10.0.0.9".toList, port := some 9100,
           widthDots := some 576, enabled := some false, copies := some 1,
           isDefault := some false },
         { name := none, host := "10.0.0.9".toList, port := some 9100,
           widthDots := some 576, enabled := some true, copies := some 1,
           isDefault := some false }] =
      Prefs.resolveSavedPrinterByIpTokenInList ("10.0.0.9".toList ++ ':' :: "9100".toList)
        [{ name := none, host := "10.0.0.9".toList, port := some 9100,
           widthDots := some 576, enabled := some true, copies := some 1,
           isDefault := some false }] ∧
    ∀ prof, Prefs.resolveSavedPrinterByIpTokenInList ("10.0.0.9:9100".toList)
        [{ name := none, host := "10.0.0.9".toList, port := some 9100,
           widthDots := some 576, enabled := some false, copies := some 1,
           isDefault := some false }] = some prof → prof.enabled = some true := by
  constructor
  · exact resolveSavedPrinter_disabled_excluded.2 ("10.0.0.9:9100".toList) _ _ rfl
  · intro prof h
    exact resolveSavedPrinter_disabled_excluded.1 _ _ prof h

/-! ### Cut fallback machines (`netPrinter.ts` / `blePrinter.ts`) -/

/-- The paper-cut mode argument. -/
inductive CutMode where
  | full
  | partialCut
deriving DecidableEq

/-- A single vendor-SDK call that either succeeds or throws. -/
def sdkCall (ok : Bool) : Except Unit Unit :=
  if ok then .ok () else .error ()

/-- A `try { await x } catch {}` whose result is discarded: whatever the
call's outcome, execution continues with `v`. -/
def swallow {β γ : Type} (x : Except Unit β) (v : γ) : γ :=
  match x with
  | .ok _ => v
  | .error _ => v

theorem swallow_const {β γ : Type} (x : Except Unit β) (v : γ) : swallow x v = v := by
  cases x <;> rfl

/-- `GS V 0` / `GS V 1`. -/
def gsVSeq : CutMode → List Nat
  | .full => [0x1D, 0x56, 0x00]
  | .partialCut => [0x1D, 0x56, 0x01]

/-- `ESC i` / `ESC m`. -/
def escIMSeq : CutMode → List Nat
  | .full => [0x1B, 0x69]
  | .partialCut => [0x1B, 0x6D]

namespace Net

/-- Capability/outcome flags of the network transport's vendor SDK: which
optional functions exist and whether each underlying call succeeds. -/
structure NetCaps where
  hasRawFn : Bool
  rawB64Ok : Bool
  rawArrOk : Bool
  hasTextFn : Bool
  textOk : Bool
  hasCutPaper : Bool
  cutPaperOk : Bool

/-- Operations `NetPrinterService.cut` can attempt, in trace order. -/
inductive NetAtt where
  | rawCall (bytes : List Nat)
  | textCall
  | nativeCut
deriving DecidableEq

/-- `NetPrinterService.printRaw` (the `src/unnamed/part_000` revision): a
missing `printRawData` is a silent no-op; the base64 path is tried first and
the `number[]` path on its failure; both failing is logged and swallowed.
The function never propagates an exception — every branch returns `.ok`. -/
def printRawNet (c : NetCaps) (bytes : List Nat) : Except Unit Bool :=
  if ¬ c.hasRawFn then .ok false
  else
    match sdkCall c.rawB64Ok with
    | .ok _ => .ok true
    | .error _ =>
      match sdkCall c.rawArrOk with
      | .ok _ => .ok true
      | .error _ => .ok false

/-- `NetPrinter.printText?.('\n\n\n', {})` — absent is no call at all. -/
def printTextNet (c : NetCaps) : Except Unit Unit :=
  if c.hasTextFn then sdkCall c.textOk else .ok ()

def cutPaperNet (c : NetCaps) : Except Unit Unit := sdkCall c.cutPaperOk

/-- The raw-opcode loop of `NetPrinterService.cut`:
`for (seq of tries) { try { await this.printRaw(seq); return; } catch {} }`. -/
def netCutLoop (c : NetCaps) : List (List Nat) → List NetAtt → Except Unit (List NetAtt)
  | [], acc => .ok acc
  | seq :: rest, acc =>
    match printRawNet c seq with
    | .ok _ => .ok (acc ++ [.rawCall seq])
    | .error _ => netCutLoop c rest (acc ++ [.rawCall seq])

def netCutTries (mode : CutMode) : List (List Nat) :=
  [gsVSeq mode, [0x1D, 0x56, 0x42, 0x03], escIMSeq mode]

/-- `NetPrinterService.cut`: feed via raw and text (both failure-swallowed),
the native `cutPaper()` when present (returning on its success), then the
raw opcode loop. -/
def netCut (c : NetCaps) (mode : CutMode) : Except Unit (List NetAtt) :=
  let a1 : List NetAtt := swallow (printRawNet c [0x1B, 0x64, 0x03]) [.rawCall [0x1B, 0x64, 0x03]]
  let a2 : List NetAtt := swallow (printTextNet c) [.textCall]
  let base := a1 ++ a2
  if c.hasCutPaper then
    match cutPaperNet c with
    | .ok _ => .ok (base ++ [.nativeCut])
    | .error _ => netCutLoop c (netCutTries mode) (base ++ [.nativeCut])
  else netCutLoop c (netCutTries mode) base

/-- The closed-form attempt trace of `netCut`. -/
def netCutTrace (c : NetCaps) (mode : CutMode) : List NetAtt :=
  [NetAtt.rawCall [0x1B, 0x64, 0x03], NetAtt.textCall] ++
    (if c.hasCutPaper then [NetAtt.nativeCut] else []) ++
    (if c.hasCutPaper && c.cutPaperOk then [] else [NetAtt.rawCall (gsVSeq mode)])

theorem printRawNet_ok (c : NetCaps) (bytes : List Nat) :
    ∃ b, printRawNet c bytes = .ok b := by
  unfold printRawNet sdkCall
  split_ifs <;> simp

theorem netCut_eq (c : NetCaps) (mode : CutMode) :
    netCut c mode = .ok (netCutTrace c mode) := by
  obtain ⟨b2, h2⟩ := printRawNet_ok c (gsVSeq mode)
  simp only [netCut, swallow_const]
  by_cases hcp : c.hasCutPaper
  · rw [if_pos hcp]
    by_cases hok : c.cutPaperOk
    · have hc : cutPaperNet c = .ok () := by rw [cutPaperNet, sdkCall, if_pos hok]
      rw [hc]
      simp [netCutTrace, hcp, hok]
    · have hc : cutPaperNet c = .error () := by rw [cutPaperNet, sdkCall, if_neg hok]
      rw [hc]
      dsimp only
      rw [netCutTries, netCutLoop, h2]
      simp [netCutTrace, hcp, hok]
  · rw [if_neg hcp, netCutTries, netCutLoop, h2]
    simp [netCutTrace, hcp]

end Net

namespace Ble

/-- Capabilities/outcomes of the hybrid BLE transport: BLE raw write support
and per-sequence acceptance, the text fallback, and the one-shot RFCOMM
session (MAC known, secure/insecure connect, per-sequence write). -/
structure BleCaps where
  hasRawFn : Bool
  rawB64Ok : List Nat → Bool
  rawArrOk : List Nat → Bool
  textOk : Bool
  hasMac : Bool
  classicSecureOk : Bool
  classicInsecureOk : Bool
  classicWriteOk : List Nat → Bool

/-- Operations `BLEPrinterService.cut` can attempt, in trace order. -/
inductive BleAtt where
  | bleRaw (bytes : List Nat)
  | bleText
  | classic (bytes : List Nat)
deriving DecidableEq

/-- `tryBleRaw`: false when `printRawData` is absent, otherwise base64 first
then `number[]`; all failures are caught and reported as `false`. -/
def tryBleRaw (c : BleCaps) (bytes : List Nat) : Bool :=
  c.hasRawFn && (c.rawB64Ok bytes || c.rawArrOk bytes)

/-- `sendClassicOnce`: requires a connected MAC, a secure-or-insecure RFCOMM
connection, and a successful write; every failure path is caught and yields
`false`. -/
def sendClassicOnce (c : BleCaps) (bytes : List Nat) : Bool :=
  c.hasMac && (c.classicSecureOk || c.classicInsecureOk) && c.classicWriteOk bytes

/-- The cutter opcode list of `BLEPrinterService.cut`:
`GS V m`, `GS V 'A' 0`, `GS V 'B' 3`, `ESC i`/`ESC m`. -/
def bleSeqs (mode : CutMode) : List (List Nat) :=
  [gsVSeq mode, [0x1D, 0x56, 0x41, 0x00], [0x1D, 0x56, 0x42, 0x03], escIMSeq mode]

/-- The prefix of a strategy list up to and including its first success. -/
def uptoFirst (ok : List Nat → Bool) : List (List Nat) → List (List Nat)
  | [] => []
  | s :: rest => if ok s then [s] else s :: uptoFirst ok rest

def bleLoop (c : BleCaps) : List (List Nat) → List BleAtt → List BleAtt × Bool
  | [], acc => (acc, false)
  | s :: rest, acc =>
    if tryBleRaw c s then (acc ++ [.bleRaw s], true)
    else bleLoop c rest (acc ++ [.bleRaw s])

def classicLoop (c : BleCaps) : List (List Nat) → List BleAtt → List BleAtt × Bool
  | [], acc => (acc, false)
  | s :: rest, acc =>
    if sendClassicOnce c s then (acc ++ [.classic s], true)
    else classicLoop c rest (acc ++ [.classic s])

/-- The feed step: `ESC d 5` via BLE raw, else a printText feed whose
failure is caught. -/
def bleFeedAtts (c : BleCaps) : List BleAtt :=
  [.bleRaw [0x1B, 0x64, 0x05]] ++
    (if tryBleRaw c [0x1B, 0x64, 0x05] then []
     else swallow (sdkCall c.textOk) [.bleText])

/-- `BLEPrinterService.cut` (the hybrid `src/transports/blePrinter.ts`
revision): feed, then the opcode list over BLE raw returning at the first
accepted write, then the same list over one-shot RFCOMM returning at the
first success; exhausting both lists only logs. -/
def bleCut (c : BleCaps) (mode : CutMode) : Except Unit (List BleAtt) :=
  let s1 := bleLoop c (bleSeqs mode) (bleFeedAtts c)
  if s1.2 then .ok s1.1
  else .ok (classicLoop c (bleSeqs mode) s1.1).1

/-- The closed-form attempt trace of `bleCut`. -/
def bleCutTrace (c : BleCaps) (mode : CutMode) : List BleAtt :=
  bleFeedAtts c ++ (uptoFirst (tryBleRaw c) (bleSeqs mode)).map BleAtt.bleRaw ++
    (if (bleSeqs mode).any (tryBleRaw c) then []
     else (uptoFirst (sendClassicOnce c) (bleSeqs mode)).map BleAtt.classic)

theorem bleLoop_eq (c : BleCaps) :
    ∀ (seqs : List (List Nat)) (acc : List BleAtt),
      bleLoop c seqs acc =
        (acc ++ (uptoFirst (tryBleRaw c) seqs).map BleAtt.bleRaw,
         seqs.any (tryBleRaw c)) := by
  intro seqs
  induction seqs with
  | nil => intro acc; simp [bleLoop, uptoFirst]
  | cons s rest ih =>
    intro acc
    rw [bleLoop]
    by_cases h : tryBleRaw c s
    · rw [if_pos h]
      simp [uptoFirst, h]
    · rw [if_neg h, ih]
      simp [uptoFirst, h]

theorem classicLoop_eq (c : BleCaps) :
    ∀ (seqs : List (List Nat)) (acc : List BleAtt),
      (classicLoop c seqs acc).1 =
        acc ++ (uptoFirst (sendClassicOnce c) seqs).map BleAtt.classic := by
  intro seqs
  induction seqs with
  | nil => intro acc; simp [classicLoop, uptoFirst]
  | cons s rest ih =>
    intro acc
    rw [classicLoop]
    by_cases h : sendClassicOnce c s
    · rw [if_pos h]
      simp [uptoFirst, h]
    · rw [if_neg h, ih]
      simp [uptoFirst, h]

theorem bleCut_eq (c : BleCaps) (mode : CutMode) :
    bleCut c mode = .ok (bleCutTrace c mode) := by
  rw [bleCut]
  simp only [bleLoop_eq c (bleSeqs mode) (bleFeedAtts c)]
  by_cases hany : (bleSeqs mode).any (tryBleRaw c)
  · rw [if_pos hany]
    simp [bleCutTrace, hany]
  · rw [if_neg hany]
    rw [classicLoop_eq]
    simp [bleCutTrace, hany, List.append_assoc]

end Ble

/-- Modelled from the spec: the documented ESC/POS cut opcode catalogue —
`GS V 0`/`GS V 1`, `GS V 'B' n`, `ESC i`/`ESC m` — stated only to compare the
documented strategy list against the implementations' attempt traces. -/
def specCutOpcodes : List (List Nat) :=
  [[0x1D, 0x56, 0x00], [0x1D, 0x56, 0x01], [0x1D, 0x56, 0x42, 0x03],
   [0x1B, 0x69], [0x1B, 0x6D]]

/-- C9 (amended): neither cut implementation ever raises — for every
capability combination both return `.ok` with a fully determined attempt
trace.  The network cut attempts feed, the native cut primitive when
present (stopping at its success), then the raw opcode loop, which always
terminates at its first entry `GS V 0/1` because `printRaw` itself cannot
throw.  The BLE cut has no native-cut step: it attempts feed, then the
opcode list `GS V 0/1`, `GS V 'A' 0`, `GS V 'B' 3`, `ESC i/m` over BLE raw
stopping at the first accepted write, then the same list over a one-shot
RFCOMM session stopping at the first success. -/
theorem cut_fallback_spec (nc : Net.NetCaps) (bc : Ble.BleCaps) (mode : CutMode) :
    Net.netCut nc mode = .ok (Net.netCutTrace nc mode) ∧
    Ble.bleCut bc mode = .ok (Ble.bleCutTrace bc mode) :=
  ⟨Net.netCut_eq nc mode, Ble.bleCut_eq bc mode⟩

/-- A BLE transport whose raw write is unsupported and whose RFCOMM writes
are all rejected: every strategy is attempted. -/
def bcCounter : Ble.BleCaps :=
  { hasRawFn := false, rawB64Ok := fun _ => false, rawArrOk := fun _ => false,
    textOk := true, hasMac := true, classicSecureOk := true,
    classicInsecureOk := false, classicWriteOk := fun _ => false }

/-- The attempt trace `bleCut bcCounter CutMode.full` produces. -/
def bleCounterTrace : List Ble.BleAtt :=
  [.bleRaw [0x1B, 0x64, 0x05], .bleText,
   .bleRaw [0x1D, 0x56, 0x00], .bleRaw [0x1D, 0x56, 0x41, 0x00],
   .bleRaw [0x1D, 0x56, 0x42, 0x03], .bleRaw [0x1B, 0x69],
   .classic [0x1D, 0x56, 0x00], .classic [0x1D, 0x56, 0x41, 0x00],
   .classic [0x1D, 0x56, 0x42, 0x03], .classic [0x1B, 0x69]]

/-- C9 (counterexample to the claim as stated): the BLE cut attempts the
opcode `GS V 'A' 0` — which is not in the documented strategy list — and
attempts it before `GS V 'B' n`, so the cut does not follow the documented
order (feed, native cut, `GS V 0/1`, `GS V 'B' n`, `ESC i/m`); the BLE path
also has no native-cut step at all. -/
theorem cut_fallback_counterexample :
    Ble.bleCut bcCounter CutMode.full = .ok bleCounterTrace ∧
    Ble.BleAtt.classic [0x1D, 0x56, 0x41, 0x00] ∈ bleCounterTrace ∧
    [0x1D, 0x56, 0x41, 0x00] ∉ specCutOpcodes := by
  refine ⟨?_, by decide, by decide⟩
  rw [Ble.bleCut_eq,
    show Ble.bleCutTrace bcCounter CutMode.full = bleCounterTrace from by decide]

end PosApp
